import Mathlib

/-!
Verification of the symbol-extraction, fuzzy-search and routing core of the
Simple-Telegram-Stock-Bot repository, as a shallow embedding in Lean.

Embedded code:
  * src/symbol_router.py  -- Router.STOCK_REGEX, Router.CRYPTO_REGEX,
    Router.find_symbols, Router.price_reply / dividend_reply / news_reply /
    info_reply / stat_reply, classes Stock / Coin.
  * src/functions.py      -- Symbol.search_symbols (cache, TTL check, the
    two-tier fuzzy scoring, sorting, top-10 projection, in-place mutation
    of the symbol table).

External collaborators (the `requests` network layer, the fuzzywuzzy string
similarity library, and the IEX / CoinGecko backend clients) are modelled as
explicit parameters: the reference lists, the fetched table, the similarity
functions and the per-symbol backend reply functions are all arguments.
Time is modelled as an integer number of seconds.
-/

/-! ## Character classes and the two regex scanners

`Router.STOCK_REGEX  = "(?:^|[^\\$])\\$([a-zA-Z]{1,4})"` (symbol_router.py line 15)
`Router.CRYPTO_REGEX = "[$]{2}([a-zA-Z]{1,9})"`          (symbol_router.py line 16)

`re.findall` scans left to right, producing non-overlapping matches; at each
start position the pattern is tried, and on success scanning resumes at the
end of the whole match (for the stock pattern this includes the consumed
preceding character).  The scanners below reproduce exactly that discipline;
the fuel argument is the length of the remaining text, and every recursive
call strictly shortens the text, so fuel `= text.length` never runs out. -/

def isLetter (c : Char) : Bool :=
  decide (('a' ≤ c ∧ c ≤ 'z') ∨ ('A' ≤ c ∧ c ≤ 'Z'))

/-- Greedy `[a-zA-Z]{0,n}`: take up to `n` leading letters, return them and
the rest of the text. -/
def takeL : Nat → List Char → List Char × List Char
  | 0, l => ([], l)
  | _ + 1, [] => ([], [])
  | n + 1, c :: rest =>
    if isLetter c then ((c :: (takeL n rest).1), (takeL n rest).2)
    else ([], c :: rest)

/-- One full `re.findall` scan of `STOCK_REGEX`.  The `Bool` records whether
the current position is the start of the text (where the `^` alternative of
`(?:^|[^$])` applies). -/
def scanS : Nat → Bool → List Char → List (List Char)
  | 0, _, _ => []
  | _ + 1, _, [] => []
  | _ + 1, _, [_] => []
  | n + 1, b, c1 :: c2 :: rest2 =>
    if c1 = '$' then
      if b then
        if (takeL 4 (c2 :: rest2)).1 = [] then scanS n false (c2 :: rest2)
        else (takeL 4 (c2 :: rest2)).1 :: scanS n false (takeL 4 (c2 :: rest2)).2
      else scanS n false (c2 :: rest2)
    else
      if c2 = '$' then
        if (takeL 4 rest2).1 = [] then scanS n false (c2 :: rest2)
        else (takeL 4 rest2).1 :: scanS n false (takeL 4 rest2).2
      else scanS n false (c2 :: rest2)

/-- One full `re.findall` scan of `CRYPTO_REGEX`. -/
def scanC : Nat → List Char → List (List Char)
  | 0, _ => []
  | _ + 1, [] => []
  | _ + 1, [_] => []
  | n + 1, c1 :: c2 :: rest2 =>
    if c1 = '$' then
      if c2 = '$' then
        if (takeL 9 rest2).1 = [] then scanC n (c2 :: rest2)
        else (takeL 9 rest2).1 :: scanC n (takeL 9 rest2).2
      else scanC n (c2 :: rest2)
    else scanC n (c2 :: rest2)

/-- `re.findall(Router.STOCK_REGEX, text)`. -/
def stockTokens (text : String) : List String :=
  (scanS text.data.length true text.data).map (fun l => String.mk l)

/-- `re.findall(Router.CRYPTO_REGEX, text)`. -/
def coinTokens (text : String) : List String :=
  (scanC text.data.length text.data).map (fun l => String.mk l)

/-! ## Router.find_symbols (symbol_router.py lines 22-52)

Python iterates over `set(re.findall(...))`; the iteration order of a Python
set is unspecified, so we model it as first-occurrence deduplication of the
findall list, which realises one admissible order.  Every claim proved below
about `find_symbols` is insensitive to the order chosen inside one class. -/

/-- Python `str.lower()` / `str.upper()` (ASCII case mapping), computed
character by character so that the kernel can evaluate it. -/
def strLower (s : String) : String := String.mk (s.data.map Char.toLower)

def strUpper (s : String) : String := String.mk (s.data.map Char.toUpper)

def dedupAux : List String → List String → List String
  | [], _ => []
  | x :: xs, seen => if x ∈ seen then dedupAux xs seen else x :: dedupAux xs (x :: seen)

def dedupKeepFirst (l : List String) : List String := dedupAux l []

/-- Runtime variants reaching the router: the `Stock` and `Coin` classes of
symbol_router.py, plus `Other` for any object that is neither (the router's
`else: print(...)` anomaly branch). -/
inductive RSym where
  | Stock (s : String)
  | Coin (s : String)
  | Other
deriving DecidableEq

/-- `Router.find_symbols(text)`; `stockList` and `coinList` stand for
`self.stock.symbol_list["symbol"].values` and
`self.crypto.symbol_list["symbol"].values`. -/
def find_symbols (stockList coinList : List String) (text : String) : List RSym :=
  (dedupKeepFirst (stockTokens text)).filterMap
    (fun s => if strUpper s ∈ stockList then some (RSym.Stock s) else none)
  ++ (dedupKeepFirst (coinTokens text)).filterMap
    (fun s => if strLower s ∈ coinList then some (RSym.Coin (strLower s)) else none)

/-! ## The router batch operations (symbol_router.py lines 79-178, 224-247)

Each operation walks the input list, dispatches on the runtime variant and
appends one reply per recognised symbol; an unrecognised object is only
logged and contributes no reply.  The backend clients are parameters
`sf` (stock) and `cf` (crypto) from symbol to reply text. -/

def priceFn (sf cf : String → String) : RSym → Option String
  | RSym.Stock s => some (sf s)
  | RSym.Coin s => some (cf s)
  | RSym.Other => none

def price_reply (sf cf : String → String) (symbols : List RSym) : List String :=
  symbols.filterMap (priceFn sf cf)

def dividendFn (sf : String → String) : RSym → Option String
  | RSym.Stock s => some (sf s)
  | RSym.Coin _ => some "Cryptocurrencies do no have Dividends."
  | RSym.Other => none

def dividend_reply (sf : String → String) (symbols : List RSym) : List String :=
  symbols.filterMap (dividendFn sf)

def newsFn (sf : String → String) : RSym → Option String
  | RSym.Stock s => some (sf s)
  | RSym.Coin _ => some "News is not yet supported for cryptocurrencies."
  | RSym.Other => none

def news_reply (sf : String → String) (symbols : List RSym) : List String :=
  symbols.filterMap (newsFn sf)

def infoFn (sf cf : String → String) : RSym → Option String
  | RSym.Stock s => some (sf s)
  | RSym.Coin s => some (cf s)
  | RSym.Other => none

def info_reply (sf cf : String → String) (symbols : List RSym) : List String :=
  symbols.filterMap (infoFn sf cf)

def statFn (sf cf : String → String) : RSym → Option String
  | RSym.Stock s => some (sf s)
  | RSym.Coin s => some (cf s)
  | RSym.Other => none

def stat_reply (sf cf : String → String) (symbols : List RSym) : List String :=
  symbols.filterMap (statFn sf cf)

/-- The reply produced for one recognised symbol (total version for stating
order preservation). -/
def priceVal (sf cf : String → String) : RSym → String
  | RSym.Stock s => sf s
  | RSym.Coin s => cf s
  | RSym.Other => ""

def dividendVal (sf : String → String) : RSym → String
  | RSym.Stock s => sf s
  | RSym.Coin _ => "Cryptocurrencies do no have Dividends."
  | RSym.Other => ""

def newsVal (sf : String → String) : RSym → String
  | RSym.Stock s => sf s
  | RSym.Coin _ => "News is not yet supported for cryptocurrencies."
  | RSym.Other => ""

def infoVal (sf cf : String → String) : RSym → String
  | RSym.Stock s => sf s
  | RSym.Coin s => cf s
  | RSym.Other => ""

def statVal (sf cf : String → String) : RSym → String
  | RSym.Stock s => sf s
  | RSym.Coin s => cf s
  | RSym.Other => ""

/-! ## Symbol.search_symbols (functions.py lines 16-75)

The stock reference table: rows with columns `Symbol`, `Issue_Name`,
`Description` (built by get_symbol_list as `Symbol ++ ": " ++ Issue_Name`)
and the `Match` column, which is absent (`none`) until a search first
assigns it.  `searched_symbols` is the process-lifetime search cache.
`fuzz.ratio` / `fuzz.partial_ratio` are parameters `ratioF` / `pRatioF`. -/

structure SRow where
  symbol : String
  issue_name : String
  description : String
  match_val : Option Nat
deriving DecidableEq

structure SymState where
  symbol_list : List SRow
  symbol_ts : Int
  searched_symbols : List (String × List (String × String))
deriving DecidableEq

def lookupCache (c : List (String × List (String × String))) (k : String) :
    Option (List (String × String)) :=
  match c with
  | [] => none
  | (k2, v) :: rest => if k2 = k then some v else lookupCache rest k

def insertCache (c : List (String × List (String × String))) (k : String)
    (v : List (String × String)) : List (String × List (String × String)) :=
  match c with
  | [] => [(k, v)]
  | (k2, v2) :: rest => if k2 = k then (k, v) :: rest else (k2, v2) :: insertCache rest k v

/-- `timedelta(hours=3)` in seconds. -/
def ttl : Int := 10800

/-- functions.py line 56: `self.symbol_ts - datetime.now() > timedelta(hours=3)`
(note the operand order, reproduced exactly as written in the source). -/
def ttl_expired (ts now : Int) : Bool := decide (ts - now > ttl)

/-- functions.py lines 60-62: assign the `Match` column from
`fuzz.ratio(search.lower(), symbol.lower())`. -/
def scoreTicker (ratioF : String → String → Nat) (search : String) (l : List SRow) :
    List SRow :=
  l.map (fun r => { r with match_val := some (ratioF (strLower search) (strLower r.symbol)) })

/-- functions.py lines 66-69: reassign the `Match` column from
`fuzz.partial_ratio(search.lower(), issue_name.lower())`. -/
def scoreName (pRatioF : String → String → Nat) (search : String) (l : List SRow) :
    List SRow :=
  l.map (fun r => { r with match_val := some (pRatioF (strLower search) (strLower r.issue_name)) })

def matchKey (r : SRow) : Nat := r.match_val.getD 0

/-- `sort_values(by="Match", ascending=False)`: a deterministic descending
sort on the `Match` column (tie order is implementation-defined in the
source, pandas quicksort; we fix insertion sort). -/
def sortByMatch (l : List SRow) : List SRow :=
  List.insertionSort (fun a b => matchKey b ≤ matchKey a) l

/-- `symbols["Match"].head().sum()`: the sum of the five leading scores of
the sorted table. -/
def sumTop5 (l : List SRow) : Nat := ((l.take 5).map matchKey).sum

/-- `Symbol.search_symbols(search)` (functions.py lines 42-75), as a function
of the explicit state.  `fetch` is what `get_symbol_list()` would return if
called (the network is external).  Returns the result list and the state
after the call; note that the scored and re-sorted full table is stored back
into `symbol_list` (the pandas operations on lines 60-71 mutate
`self.symbol_list` in place through the alias `symbols`). -/
def search_symbols (ratioF pRatioF : String → String → Nat)
    (fetch : List SRow × Int) (now : Int) (search : String) (st : SymState) :
    List (String × String) × SymState :=
  match lookupCache st.searched_symbols search with
  | some res => (res, st)
  | none =>
    let lst := if ttl_expired st.symbol_ts now then fetch.1 else st.symbol_list
    let ts := if ttl_expired st.symbol_ts now then fetch.2 else st.symbol_ts
    let sorted := sortByMatch (scoreTicker ratioF search lst)
    let final := if sumTop5 sorted < 300 then sortByMatch (scoreName pRatioF search sorted)
      else sorted
    let res := (final.take 10).map (fun r => (r.symbol, r.description))
    (res, ⟨final, ts, insertCache st.searched_symbols search res⟩)

/-- The ranking pipeline of a cache-miss search over a given table: the
ticker-based scoring and sort of lines 60-64, then, when the sum of the five
leading scores is below 300, the name-based rescoring and re-sort of lines
65-71. -/
def rankPhase (ratioF pRatioF : String → String → Nat) (q : String) (lst : List SRow) :
    List SRow :=
  if sumTop5 (sortByMatch (scoreTicker ratioF q lst)) < 300 then
    sortByMatch (scoreName pRatioF q (sortByMatch (scoreTicker ratioF q lst)))
  else sortByMatch (scoreTicker ratioF q lst)

/-- The per-call frame of the reference table: the row data that is not the
`Match` scoring column. -/
def rowStrip (r : SRow) : String × String × String := (r.symbol, r.issue_name, r.description)

/-- Invariant of the search cache: every stored result has at most 10
entries (every value ever inserted is a `head(10)` projection). -/
def cacheBounded (st : SymState) : Prop :=
  ∀ p ∈ st.searched_symbols, p.2.length ≤ 10

/-! ## Concrete instances used for counterexamples and witnesses

`eqRatio` and `subRatio` are concrete similarity functions agreeing with
`fuzz.ratio` / `fuzz.partial_ratio` on every string pair they are applied to
below: `fuzz.ratio` is 100 on equal strings and 0 on disjoint ones, and
`fuzz.partial_ratio` is 100 exactly when the shorter string occurs as a
contiguous substring of the longer. -/

def eqRatio (a b : String) : Nat := if a = b then 100 else 0

def leadsOf : List Char → List Char → Bool
  | [], _ => true
  | _ :: _, [] => false
  | x :: xs, y :: ys => x = y && leadsOf xs ys

def occursIn (a b : List Char) : Bool :=
  match b with
  | [] => a.isEmpty
  | _ :: ys => leadsOf a b || occursIn a ys

def subRatio (a b : String) : Nat := if occursIn a.data b.data then 100 else 0

def rowAB : SRow := ⟨"AB", "Zzz", "AB: Zzz", none⟩

def rowCD : SRow := ⟨"CD", "Lab Corp", "CD: Lab Corp", none⟩

def stTwo : SymState := ⟨[rowAB, rowCD], 0, []⟩

def rowA1 : SRow := ⟨"AB", "Alpha", "AB: Alpha", none⟩

def stThree : SymState := ⟨[rowA1, rowA1, rowA1], 0, []⟩

def stOne : SymState := ⟨[rowAB], 0, []⟩

/-! ## Helper lemmas: takeL -/

theorem takeL_eq_append : ∀ (n : Nat) (l : List Char), (takeL n l).1 ++ (takeL n l).2 = l
  | 0, _ => rfl
  | _ + 1, [] => rfl
  | n + 1, c :: rest => by
    by_cases h : isLetter c
    · simp [takeL, h, takeL_eq_append n rest]
    · simp [takeL, h]

theorem takeL_snd_length (n : Nat) (l : List Char) : (takeL n l).2.length ≤ l.length := by
  conv_rhs => rw [← takeL_eq_append n l]
  simp

theorem takeL_stops : ∀ (n : Nat) (u : List Char) (c : Char) (w : List Char),
    isLetter c = false →
    ∃ u1 u2, u = u1 ++ u2 ∧ takeL n (u ++ c :: w) = (u1, u2 ++ c :: w) := by
  intro n u
  induction u generalizing n with
  | nil =>
    intro c w hc
    refine ⟨[], [], rfl, ?_⟩
    cases n with
    | zero => rfl
    | succ m => simp [takeL, hc]
  | cons a u ih =>
    intro c w hc
    cases n with
    | zero => exact ⟨[], a :: u, rfl, rfl⟩
    | succ m =>
      by_cases ha : isLetter a
      · obtain ⟨u1, u2, hu, hp⟩ := ih m c w hc
        exact ⟨a :: u1, u2, by simp [hu], by simp [takeL, ha, hp]⟩
      · exact ⟨[], a :: u, rfl, by simp [takeL, ha]⟩

theorem takeL_exact : ∀ (n : Nat) (t v : List Char),
    (∀ a ∈ t, isLetter a = true) → t.length ≤ n →
    (t.length = n ∨ (∀ a ∈ v.take 1, isLetter a = false)) →
    takeL n (t ++ v) = (t, v) := by
  intro n t
  induction t generalizing n with
  | nil =>
    intro v _ _ hd
    rcases hd with hd | hd
    · simp at hd
      subst hd; rfl
    · cases n with
      | zero => rfl
      | succ m =>
        cases v with
        | nil => rfl
        | cons a v2 =>
          have : isLetter a = false := hd a (by simp)
          simp [takeL, this]
  | cons b t ih =>
    intro v hl hn hd
    cases n with
    | zero => simp at hn
    | succ m =>
      have hb : isLetter b = true := hl b (by simp)
      have ht : ∀ a ∈ t, isLetter a = true := fun a ha => hl a (by simp [ha])
      have hm : t.length ≤ m := by simpa using hn
      have hd2 : t.length = m ∨ (∀ a ∈ v.take 1, isLetter a = false) := by
        rcases hd with hd | hd
        · left; simpa using hd
        · right; exact hd
      simp [takeL, hb, ih m v ht hm hd2]

/-! ## Soundness of the scanners: every reported token sits at a matching
position of the text.  For the stock pattern the introducing `'$'` is at the
start of the text or preceded by a non-dollar character; for the crypto
pattern the token follows two consecutive dollars. -/

theorem scanS_sound : ∀ (n : Nat) (b : Bool) (l t : List Char),
    t ∈ scanS n b l →
    ∃ pre post, l = pre ++ '$' :: (t ++ post) ∧
      ((b = true ∧ pre = []) ∨ ∃ pre2 c0, pre = pre2 ++ [c0] ∧ c0 ≠ '$') := by
  intro n
  induction n with
  | zero => intro b l t h; simp [scanS] at h
  | succ n ih =>
    intro b l t h
    rcases l with _ | ⟨c1, _ | ⟨c2, rest2⟩⟩
    · simp [scanS] at h
    · simp [scanS] at h
    · simp only [scanS] at h
      have lift : t ∈ scanS n false (c2 :: rest2) →
          ∃ pre post, c1 :: c2 :: rest2 = pre ++ '$' :: (t ++ post) ∧
            ((b = true ∧ pre = []) ∨ ∃ pre2 c0, pre = pre2 ++ [c0] ∧ c0 ≠ '$') := by
        intro hm
        obtain ⟨pre, post, hdec, hcond⟩ := ih false (c2 :: rest2) t hm
        rcases hcond with ⟨hfalse, _⟩ | ⟨pre2, c0, hpre, hne⟩
        · simp at hfalse
        · exact ⟨c1 :: pre, post, by simp [hdec], Or.inr ⟨c1 :: pre2, c0, by simp [hpre], hne⟩⟩
      by_cases hc1 : c1 = '$'
      · rw [if_pos hc1] at h
        by_cases hb : b
        · rw [if_pos hb] at h
          rcases hp : takeL 4 (c2 :: rest2) with ⟨t1, r1⟩
          simp only [hp] at h
          have hsplit : t1 ++ r1 = c2 :: rest2 := by
            have := takeL_eq_append 4 (c2 :: rest2); rw [hp] at this; exact this
          by_cases he : t1 = []
          · exact lift (by simpa [if_pos he] using h)
          · rw [if_neg he] at h
            rcases List.mem_cons.mp h with ht | ht
            · subst ht
              exact ⟨[], r1, by rw [hc1, ← hsplit]; simp, Or.inl ⟨hb, rfl⟩⟩
            · obtain ⟨pre, post, hdec, hcond⟩ := ih false r1 t ht
              rcases hcond with ⟨hfalse, _⟩ | ⟨pre2, c0, hpre, hne⟩
              · simp at hfalse
              · refine ⟨'$' :: (t1 ++ pre), post, ?_, ?_⟩
                · rw [hc1, ← hsplit, hdec]; simp
                · exact Or.inr ⟨'$' :: (t1 ++ pre2), c0, by simp [hpre], hne⟩
        · exact lift (by simpa [if_neg hb] using h)
      · rw [if_neg hc1] at h
        by_cases hc2 : c2 = '$'
        · rw [if_pos hc2] at h
          rcases hp : takeL 4 rest2 with ⟨t1, r1⟩
          simp only [hp] at h
          have hsplit : t1 ++ r1 = rest2 := by
            have := takeL_eq_append 4 rest2; rw [hp] at this; exact this
          by_cases he : t1 = []
          · exact lift (by simpa [if_pos he] using h)
          · rw [if_neg he] at h
            rcases List.mem_cons.mp h with ht | ht
            · subst ht
              exact ⟨[c1], r1, by rw [hc2, ← hsplit]; simp, Or.inr ⟨[], c1, by simp, hc1⟩⟩
            · obtain ⟨pre, post, hdec, hcond⟩ := ih false r1 t ht
              rcases hcond with ⟨hfalse, _⟩ | ⟨pre2, c0, hpre, hne⟩
              · simp at hfalse
              · refine ⟨c1 :: '$' :: (t1 ++ pre), post, ?_, ?_⟩
                · rw [hc2, ← hsplit, hdec]; simp
                · exact Or.inr ⟨c1 :: '$' :: (t1 ++ pre2), c0, by simp [hpre], hne⟩
        · exact lift (by simpa [if_neg hc2] using h)

theorem scanC_sound : ∀ (n : Nat) (l t : List Char),
    t ∈ scanC n l → ∃ pre post, l = pre ++ '$' :: '$' :: (t ++ post) := by
  intro n
  induction n with
  | zero => intro l t h; simp [scanC] at h
  | succ n ih =>
    intro l t h
    rcases l with _ | ⟨c1, _ | ⟨c2, rest2⟩⟩
    · simp [scanC] at h
    · simp [scanC] at h
    · simp only [scanC] at h
      have lift : t ∈ scanC n (c2 :: rest2) →
          ∃ pre post, c1 :: c2 :: rest2 = pre ++ '$' :: '$' :: (t ++ post) := by
        intro hm
        obtain ⟨pre, post, hdec⟩ := ih (c2 :: rest2) t hm
        exact ⟨c1 :: pre, post, by simp [hdec]⟩
      by_cases hc1 : c1 = '$'
      · rw [if_pos hc1] at h
        by_cases hc2 : c2 = '$'
        · rw [if_pos hc2] at h
          rcases hp : takeL 9 rest2 with ⟨t1, r1⟩
          simp only [hp] at h
          have hsplit : t1 ++ r1 = rest2 := by
            have := takeL_eq_append 9 rest2; rw [hp] at this; exact this
          by_cases he : t1 = []
          · exact lift (by simpa [if_pos he] using h)
          · rw [if_neg he] at h
            rcases List.mem_cons.mp h with ht | ht
            · subst ht
              exact ⟨[], r1, by rw [hc1, hc2, ← hsplit]; simp⟩
            · obtain ⟨pre, post, hdec⟩ := ih r1 t ht
              exact ⟨'$' :: '$' :: (t1 ++ pre), post, by rw [hc1, hc2, ← hsplit, hdec]; simp⟩
        · exact lift (by simpa [if_neg hc2] using h)
      · exact lift (by simpa [if_neg hc1] using h)

/-! ## Completeness of the stock scanner at guarded positions.

A match can only consume letters after its `'$'`, so a non-letter,
non-dollar character is never swallowed by an earlier match; consequently a
`'$'` preceded by such a character (or standing at the start of the text)
and followed by a run of letters is always found by the scan. -/

theorem takeL_head_not_letter (n : Nat) (c : Char) (w : List Char)
    (hc : isLetter c = false) : takeL n (c :: w) = ([], c :: w) := by
  cases n with
  | zero => rfl
  | succ m => simp [takeL, hc]

theorem scanS_complete_start (n : Nat) (t v : List Char)
    (hlen : ('$' :: (t ++ v)).length ≤ n)
    (hl : ∀ a ∈ t, isLetter a = true) (hne : t ≠ []) (h4 : t.length ≤ 4)
    (hv : t.length = 4 ∨ (∀ a ∈ v.take 1, isLetter a = false)) :
    t ∈ scanS n true ('$' :: (t ++ v)) := by
  rcases n with _ | n
  · simp at hlen
  rcases ht : t with _ | ⟨a, t2⟩
  · exact absurd ht hne
  rw [← ht]
  have hx : t ++ v = a :: (t2 ++ v) := by rw [ht]; simp
  rw [hx]
  simp only [scanS, if_pos rfl]
  rw [← hx, takeL_exact 4 t v hl h4 hv]
  simp [hne]

theorem scanS_complete_mid : ∀ (n : Nat) (u : List Char) (b : Bool) (c : Char)
    (t v : List Char),
    (u ++ c :: '$' :: (t ++ v)).length ≤ n →
    c ≠ '$' → isLetter c = false →
    (∀ a ∈ t, isLetter a = true) → t ≠ [] → t.length ≤ 4 →
    (t.length = 4 ∨ (∀ a ∈ v.take 1, isLetter a = false)) →
    t ∈ scanS n b (u ++ c :: '$' :: (t ++ v)) := by
  intro n
  induction n with
  | zero =>
    intro u b c t v hlen
    exfalso
    simp [List.length_append] at hlen
  | succ n ih =>
    intro u b c t v hlen hcd hcl hl hne h4 hv
    rcases u with _ | ⟨x, u2⟩
    · -- the guard character is at the head: the match fires here
      simp only [List.nil_append, scanS, if_neg hcd, if_pos rfl]
      rw [takeL_exact 4 t v hl h4 hv]
      simp [hne]
    · have hlen2 : (u2 ++ c :: '$' :: (t ++ v)).length ≤ n := by
        simpa using Nat.le_of_succ_le_succ hlen
      rcases hu2 : u2 with _ | ⟨y, u3⟩
      · -- text = x :: c :: '$' :: t ++ v
        subst hu2
        have step : t ∈ scanS n false (c :: '$' :: (t ++ v)) :=
          ih [] false c t v (by simpa using hlen2) hcd hcl hl hne h4 hv
        simp only [List.nil_append, List.cons_append]
        simp only [scanS]
        by_cases hx : x = '$'
        · rw [if_pos hx]
          by_cases hb : b
          · rw [if_pos hb, takeL_head_not_letter 4 c ('$' :: (t ++ v)) hcl]
            simp only [if_pos rfl]
            exact step
          · rw [if_neg hb]; exact step
        · rw [if_neg hx, if_neg hcd]
          exact step
      · -- text = x :: y :: u3 ++ c :: '$' :: t ++ v
        subst hu2
        simp only [List.cons_append]
        simp only [scanS]
        have tail : t ∈ scanS n false (y :: (u3 ++ c :: '$' :: (t ++ v))) := by
          have := ih (y :: u3) false c t v (by simpa using hlen2) hcd hcl hl hne h4 hv
          simpa using this
        have tail2 : ∀ u4 : List Char, (u4 ++ c :: '$' :: (t ++ v)).length ≤ n →
            t ∈ scanS n false (u4 ++ c :: '$' :: (t ++ v)) :=
          fun u4 hl4 => ih u4 false c t v hl4 hcd hcl hl hne h4 hv
        by_cases hx : x = '$'
        · rw [if_pos hx]
          rcases hp : takeL 4 (y :: (u3 ++ c :: '$' :: (t ++ v))) with ⟨t1, r1⟩
          obtain ⟨u1, u4, hu, hq⟩ := takeL_stops 4 (y :: u3) c ('$' :: (t ++ v)) hcl
          rw [show ((y :: u3) ++ c :: '$' :: (t ++ v)) = y :: (u3 ++ c :: '$' :: (t ++ v))
            by simp] at hq
          rw [hp] at hq
          have ht1 : t1 = u1 := by simpa using congrArg Prod.fst hq
          have hr1 : r1 = u4 ++ c :: '$' :: (t ++ v) := by simpa using congrArg Prod.snd hq
          simp only [hp]
          by_cases hb : b
          · rw [if_pos hb]
            by_cases he : t1 = []
            · rw [if_pos he]; exact tail
            · rw [if_neg he]
              refine List.mem_cons_of_mem _ ?_
              rw [hr1]
              refine tail2 u4 ?_
              have hlu : (y :: u3).length = u1.length + u4.length := by
                rw [hu]; simp
              simp only [List.length_cons] at hlu
              simp only [List.length_cons, List.length_append] at hlen2 ⊢
              omega
          · rw [if_neg hb]; exact tail
        · rw [if_neg hx]
          by_cases hy : y = '$'
          · rw [if_pos hy]
            rcases hp : takeL 4 (u3 ++ c :: '$' :: (t ++ v)) with ⟨t1, r1⟩
            obtain ⟨u1, u4, hu, hq⟩ := takeL_stops 4 u3 c ('$' :: (t ++ v)) hcl
            rw [hp] at hq
            have ht1 : t1 = u1 := by simpa using congrArg Prod.fst hq
            have hr1 : r1 = u4 ++ c :: '$' :: (t ++ v) := by simpa using congrArg Prod.snd hq
            simp only [hp]
            by_cases he : t1 = []
            · rw [if_pos he]; exact tail
            · rw [if_neg he]
              refine List.mem_cons_of_mem _ ?_
              rw [hr1]
              refine tail2 u4 ?_
              have hlu : u3.length = u1.length + u4.length := by rw [hu]; simp
              simp only [List.length_cons, List.length_append] at hlen2 ⊢
              omega
          · rw [if_neg hy]
            exact tail

/-! ## Helper lemmas: the search state machine -/

theorem ttl_not_expired (ts now : Int) (h : ts ≤ now) : ttl_expired ts now = false := by
  simp only [ttl_expired, decide_eq_false_iff_not, not_lt, ttl]
  omega

theorem search_symbols_hit (ratioF pRatioF : String → String → Nat)
    (fetch : List SRow × Int) (now : Int) (q : String) (st : SymState)
    (res : List (String × String))
    (hc : lookupCache st.searched_symbols q = some res) :
    search_symbols ratioF pRatioF fetch now q st = (res, st) := by
  simp only [search_symbols, hc]

theorem search_symbols_miss (ratioF pRatioF : String → String → Nat)
    (fetch : List SRow × Int) (now : Int) (q : String) (st : SymState)
    (hc : lookupCache st.searched_symbols q = none) (hts : st.symbol_ts ≤ now) :
    search_symbols ratioF pRatioF fetch now q st =
      (((rankPhase ratioF pRatioF q st.symbol_list).take 10).map
         (fun r => (r.symbol, r.description)),
       ⟨rankPhase ratioF pRatioF q st.symbol_list, st.symbol_ts,
        insertCache st.searched_symbols q
          (((rankPhase ratioF pRatioF q st.symbol_list).take 10).map
            (fun r => (r.symbol, r.description)))⟩) := by
  simp only [search_symbols, hc, ttl_not_expired st.symbol_ts now hts, rankPhase]
  simp

theorem lookupCache_insert_self (c : List (String × List (String × String)))
    (k : String) (v : List (String × String)) :
    lookupCache (insertCache c k v) k = some v := by
  induction c with
  | nil => simp [insertCache, lookupCache]
  | cons p rest ih =>
    by_cases h : p.1 = k
    · simp [insertCache, h, lookupCache]
    · simp only [insertCache]
      rw [show (p.1, p.2) = p from rfl]
      simp only [h, if_false, lookupCache]
      exact ih

theorem lookupCache_mem (c : List (String × List (String × String)))
    (k : String) (v : List (String × String)) (h : lookupCache c k = some v) :
    (k, v) ∈ c := by
  induction c with
  | nil => simp [lookupCache] at h
  | cons p rest ih =>
    rw [lookupCache] at h
    by_cases hk : p.1 = k
    · rw [if_pos hk] at h
      have hp : (k, v) = p := by
        cases p
        simp_all
      rw [← hp]
      exact List.mem_cons_self _ _
    · rw [if_neg hk] at h
      exact List.mem_cons_of_mem _ (ih h)

theorem mem_insertCache (c : List (String × List (String × String)))
    (k : String) (v : List (String × String)) (p : String × List (String × String))
    (h : p ∈ insertCache c k v) : p = (k, v) ∨ p ∈ c := by
  induction c with
  | nil => simpa [insertCache] using h
  | cons q rest ih =>
    rw [insertCache] at h
    by_cases hk : q.1 = k
    · rw [show (q.1, q.2) = q from rfl] at h
      rw [if_pos hk] at h
      rcases List.mem_cons.mp h with h | h
      · exact Or.inl h
      · exact Or.inr (List.mem_cons_of_mem _ h)
    · rw [show (q.1, q.2) = q from rfl] at h
      rw [if_neg hk] at h
      rcases List.mem_cons.mp h with h | h
      · exact Or.inr (by simp [h])
      · rcases ih h with h | h
        · exact Or.inl h
        · exact Or.inr (List.mem_cons_of_mem _ h)

theorem rowStrip_scoreTicker (ratioF : String → String → Nat) (q : String)
    (l : List SRow) : (scoreTicker ratioF q l).map rowStrip = l.map rowStrip := by
  simp [scoreTicker, List.map_map]
  intro a _
  rfl

theorem rowStrip_scoreName (pRatioF : String → String → Nat) (q : String)
    (l : List SRow) : (scoreName pRatioF q l).map rowStrip = l.map rowStrip := by
  simp [scoreName, List.map_map]
  intro a _
  rfl

theorem rowStrip_sortByMatch (l : List SRow) :
    List.Perm ((sortByMatch l).map rowStrip) (l.map rowStrip) :=
  (List.perm_insertionSort _ l).map rowStrip

theorem rowStrip_rankPhase (ratioF pRatioF : String → String → Nat) (q : String)
    (lst : List SRow) :
    List.Perm ((rankPhase ratioF pRatioF q lst).map rowStrip) (lst.map rowStrip) := by
  rw [rankPhase]
  by_cases h : sumTop5 (sortByMatch (scoreTicker ratioF q lst)) < 300
  · rw [if_pos h]
    refine (rowStrip_sortByMatch _).trans ?_
    rw [rowStrip_scoreName]
    refine (rowStrip_sortByMatch _).trans ?_
    rw [rowStrip_scoreTicker]
  · rw [if_neg h]
    refine (rowStrip_sortByMatch _).trans ?_
    rw [rowStrip_scoreTicker]

theorem filterMap_eq_map_of_no_other (g : RSym → Option String) (f : RSym → String)
    (hg : ∀ x, x ≠ RSym.Other → g x = some (f x)) :
    ∀ l : List RSym, (∀ x ∈ l, x ≠ RSym.Other) → l.filterMap g = l.map f := by
  intro l
  induction l with
  | nil => intro _; rfl
  | cons a l ih =>
    intro h
    have ha := hg a (h a (by simp))
    simp [List.filterMap_cons, ha, ih (fun x hx => h x (by simp [hx]))]

/-! ## The claims -/

/-- C1: the claim states that a search call finding the reference list older
than the 3-hour TTL refreshes it before scoring.  The code's TTL test
(functions.py line 56) is `symbol_ts - now > 3h`, which is never true when
the fetch timestamp is not in the future, so no call ever refreshes: the
fetched timestamp is never installed, whatever the elapsed time. -/
theorem C1_ttl_never_refreshes (ratioF pRatioF : String → String → Nat)
    (fetch : List SRow × Int) (now : Int) (q : String) (st : SymState)
    (hts : st.symbol_ts ≤ now) :
    ttl_expired st.symbol_ts now = false ∧
    (search_symbols ratioF pRatioF fetch now q st).2.symbol_ts = st.symbol_ts := by
  refine ⟨ttl_not_expired _ _ hts, ?_⟩
  rcases hc : lookupCache st.searched_symbols q with _ | res
  · rw [search_symbols_miss ratioF pRatioF fetch now q st hc hts]
  · rw [search_symbols_hit ratioF pRatioF fetch now q st res hc]

/-- C1 witness: four hours after the fetch (elapsed time well past the TTL)
the timestamp is still not updated by a search call. -/
theorem C1_witness :
    ((14400 : Int) - stOne.symbol_ts > ttl) ∧
    ttl_expired stOne.symbol_ts 14400 = false ∧
    (search_symbols eqRatio subRatio ([], 0) 14400 "q" stOne).2.symbol_ts =
      stOne.symbol_ts :=
  ⟨by decide, C1_ttl_never_refreshes eqRatio subRatio ([], 0) 14400 "q" stOne (by decide)⟩

/-- C2 counterexample: a cache-miss call that triggers no TTL refresh still
changes the stored table: the `Match` column appears on its only row. -/
theorem C2_cex :
    ttl_expired stOne.symbol_ts 0 = false ∧
    lookupCache stOne.searched_symbols "q" = none ∧
    (search_symbols eqRatio subRatio ([], 0) 0 "q" stOne).2.symbol_list ≠
      stOne.symbol_list := by
  decide

/-- C2 (amended): a call that hits the search cache leaves the whole state
unchanged; a cache-miss call without refresh rewrites the `Match` column and
permutes the rows of the stored table in place, but preserves the multiset
of `(Symbol, Issue_Name, Description)` row contents — wholesale row
replacement is confined to the refresh branch. -/
theorem C2_mutation_bounds (ratioF pRatioF : String → String → Nat)
    (fetch : List SRow × Int) (now : Int) (q : String) (st : SymState)
    (hts : st.symbol_ts ≤ now) :
    (∀ res, lookupCache st.searched_symbols q = some res →
      (search_symbols ratioF pRatioF fetch now q st).2 = st) ∧
    (lookupCache st.searched_symbols q = none →
      List.Perm ((search_symbols ratioF pRatioF fetch now q st).2.symbol_list.map rowStrip)
        (st.symbol_list.map rowStrip)) := by
  constructor
  · intro res hc
    rw [search_symbols_hit ratioF pRatioF fetch now q st res hc]
  · intro hc
    rw [search_symbols_miss ratioF pRatioF fetch now q st hc hts]
    exact rowStrip_rankPhase ratioF pRatioF q st.symbol_list

/-- C2 witness: on a concrete cache-miss call the surviving row contents are
a permutation of the original ones. -/
theorem C2_witness :
    List.Perm ((search_symbols eqRatio subRatio ([], 0) 0 "q" stOne).2.symbol_list.map rowStrip)
      (stOne.symbol_list.map rowStrip) :=
  (C2_mutation_bounds eqRatio subRatio ([], 0) 0 "q" stOne (by decide)).2 (by rfl)

/-- C3: evaluating `find_symbols` at text mentioning the same coin ticker in
two letter cases: the `set()` deduplication happens before lower-casing, so
two identical `Coin("btc")` symbols are returned, contradicting the claim
(and the docstring's promise to return each match only once). -/
theorem C3_coin_dup_eval :
    find_symbols [] ["btc"] "$$btc $$BTC" = [RSym.Coin "btc", RSym.Coin "btc"] ∧
    (find_symbols [] ["btc"] "$$btc $$BTC").count (RSym.Coin "btc") = 2 := by
  decide

/-- C4: a token introduced by `$$` is never a stock match (every stock token
is introduced by a `'$'` that is at the start of the text or preceded by a
non-dollar character), a single-`$` token is never a coin match (every coin
token follows two consecutive dollars), and a text containing both `$abc`
and `$$abc` with `abc` in both reference lists yields exactly one Stock and
one Coin, independently. -/
theorem C4_marker_separation :
    (∀ (s t : String), t ∈ stockTokens s →
      ∃ tl pre post, t = String.mk tl ∧ s.data = pre ++ '$' :: (tl ++ post) ∧
        (pre = [] ∨ ∃ pre2 c0, pre = pre2 ++ [c0] ∧ c0 ≠ '$')) ∧
    (∀ (s t : String), t ∈ coinTokens s →
      ∃ tl pre post, t = String.mk tl ∧ s.data = pre ++ '$' :: '$' :: (tl ++ post)) ∧
    stockTokens "$$abc" = [] ∧ coinTokens "$abc" = [] ∧
    find_symbols ["ABC"] ["abc"] "i see $abc and $$abc" =
      [RSym.Stock "abc", RSym.Coin "abc"] := by
  refine ⟨?_, ?_, by decide, by decide, by decide⟩
  · intro s t h
    rw [stockTokens] at h
    obtain ⟨tl, hm, he⟩ := List.mem_map.mp h
    obtain ⟨pre, post, hdec, hcond⟩ := scanS_sound _ true _ tl hm
    refine ⟨tl, pre, post, he.symm, hdec, ?_⟩
    rcases hcond with ⟨_, hpre⟩ | hex
    · exact Or.inl hpre
    · exact Or.inr hex
  · intro s t h
    rw [coinTokens] at h
    obtain ⟨tl, hm, he⟩ := List.mem_map.mp h
    obtain ⟨pre, post, hdec⟩ := scanC_sound _ _ tl hm
    exact ⟨tl, pre, post, he.symm, hdec⟩

/-- C4 witness: the stock-side soundness applied to the token `ab` of the
concrete text `x$ab`. -/
theorem C4_witness :
    ("ab" ∈ stockTokens "x$ab") ∧
    (∃ tl pre post, ("ab" : String) = String.mk tl ∧
      ("x$ab" : String).data = pre ++ '$' :: (tl ++ post) ∧
      (pre = [] ∨ ∃ pre2 c0, pre = pre2 ++ [c0] ∧ c0 ≠ '$')) :=
  ⟨by decide, C4_marker_separation.1 "x$ab" "ab" (by decide)⟩

/-- C5 counterexample: in `$a$b` the claim expects both `a` and `b` to be
extracted as stock candidates, but the scan only extracts `a`: the second
`$` is preceded by the letter `a`, which the first match consumed, so the
non-overlapping scan skips it. -/
theorem C5_cex :
    stockTokens "$a$b" = ["a"] ∧ ¬ ("b" ∈ stockTokens "$a$b") := by
  decide

/-- C5 (amended): extraction is left-to-right and non-overlapping, and each
match consumes the character preceding its `'$'`.  Every `'$'` at the start
of the text, and every `'$'` preceded by a character that is neither `'$'`
nor a letter (such a character is never consumed by an earlier match),
followed by a maximal run of one to four letters, is extracted.  A `'$'`
preceded by a letter may be skipped when an earlier match consumed that
letter: in `$a$b` only `a` is extracted. -/
theorem C5_guarded_extraction :
    (∀ (t v : List Char), (∀ a ∈ t, isLetter a = true) → t ≠ [] → t.length ≤ 4 →
      (t.length = 4 ∨ (∀ a ∈ v.take 1, isLetter a = false)) →
      String.mk t ∈ stockTokens (String.mk ('$' :: (t ++ v)))) ∧
    (∀ (u : List Char) (c : Char) (t v : List Char), c ≠ '$' → isLetter c = false →
      (∀ a ∈ t, isLetter a = true) → t ≠ [] → t.length ≤ 4 →
      (t.length = 4 ∨ (∀ a ∈ v.take 1, isLetter a = false)) →
      String.mk t ∈ stockTokens (String.mk (u ++ c :: '$' :: (t ++ v)))) ∧
    stockTokens "$a$b" = ["a"] := by
  refine ⟨?_, ?_, by decide⟩
  · intro t v hl hne h4 hv
    exact List.mem_map_of_mem _
      (scanS_complete_start ('$' :: (t ++ v)).length t v le_rfl hl hne h4 hv)
  · intro u c t v hcd hcl hl hne h4 hv
    exact List.mem_map_of_mem _
      (scanS_complete_mid (u ++ c :: '$' :: (t ++ v)).length u true c t v le_rfl
        hcd hcl hl hne h4 hv)

/-- C5 witness: both parts of the guarded completeness at concrete inputs:
the text `$cd` (start position), and the text ` $ab` (non-letter,
non-dollar guard). -/
theorem C5_witness :
    String.mk ['c', 'd'] ∈ stockTokens (String.mk ['$', 'c', 'd']) ∧
    String.mk ['a', 'b'] ∈ stockTokens (String.mk [' ', '$', 'a', 'b']) :=
  ⟨by
    have := C5_guarded_extraction.1 ['c', 'd'] [] (by decide) (by decide) (by decide)
      (Or.inr (by decide))
    simpa using this,
   by
    have := C5_guarded_extraction.2.1 [] ' ' ['a', 'b'] [] (by decide) (by decide)
      (by decide) (by decide) (by decide) (Or.inr (by decide))
    simpa using this⟩

/-- C7: on a cache miss, rows are scored by similarity of the lower-cased
query against the lower-cased ticker and sorted descending; exactly when the
sum of the five leading scores is strictly below 300, the ticker scores are
discarded, every row is rescored by partial-substring similarity of the
query against the issue name, and the table is re-sorted descending;
otherwise the ticker ranking is kept.  The returned list projects the first
ten rows of whichever ranking survived. -/
theorem C7_threshold_fallback (ratioF pRatioF : String → String → Nat)
    (fetch : List SRow × Int) (now : Int) (q : String) (st : SymState)
    (hc : lookupCache st.searched_symbols q = none) (hts : st.symbol_ts ≤ now) :
    (search_symbols ratioF pRatioF fetch now q st).1 =
      if sumTop5 (sortByMatch (scoreTicker ratioF q st.symbol_list)) < 300 then
        ((sortByMatch (scoreName pRatioF q
            (sortByMatch (scoreTicker ratioF q st.symbol_list)))).take 10).map
          (fun r => (r.symbol, r.description))
      else
        ((sortByMatch (scoreTicker ratioF q st.symbol_list)).take 10).map
          (fun r => (r.symbol, r.description)) := by
  rw [search_symbols_miss ratioF pRatioF fetch now q st hc hts]
  dsimp only
  rw [rankPhase]
  by_cases h : sumTop5 (sortByMatch (scoreTicker ratioF q st.symbol_list)) < 300
  · rw [if_pos h, if_pos h]
  · rw [if_neg h, if_neg h]

/-- C7 witness: on a concrete 2-row table with a weak ticker signal the
equality holds (and the fallback branch is the one taken). -/
theorem C7_witness :
    (search_symbols eqRatio subRatio ([], 0) 0 "AB" stTwo).1 =
      (if sumTop5 (sortByMatch (scoreTicker eqRatio "AB" stTwo.symbol_list)) < 300 then
        ((sortByMatch (scoreName subRatio "AB"
            (sortByMatch (scoreTicker eqRatio "AB" stTwo.symbol_list)))).take 10).map
          (fun r => (r.symbol, r.description))
      else
        ((sortByMatch (scoreTicker eqRatio "AB" stTwo.symbol_list)).take 10).map
          (fun r => (r.symbol, r.description))) :=
  C7_threshold_fallback eqRatio subRatio ([], 0) 0 "AB" stTwo (by rfl) (by decide)

/-- C8: two successive calls with the same query return identical results
(the first call caches its result and the second is answered from the
cache, whatever happens to the clock or the fetchable list in between), and
every returned list has at most ten entries, given that every previously
cached list does (which every run of search calls preserves). -/
theorem search_symbols_miss_any (ratioF pRatioF : String → String → Nat)
    (fetch : List SRow × Int) (now : Int) (q : String) (st : SymState)
    (hc : lookupCache st.searched_symbols q = none) :
    ∃ final : List SRow,
      search_symbols ratioF pRatioF fetch now q st =
        ((final.take 10).map (fun r => (r.symbol, r.description)),
         ⟨final, if ttl_expired st.symbol_ts now then fetch.2 else st.symbol_ts,
          insertCache st.searched_symbols q
            ((final.take 10).map (fun r => (r.symbol, r.description)))⟩) := by
  refine ⟨rankPhase ratioF pRatioF q
    (if ttl_expired st.symbol_ts now then fetch.1 else st.symbol_list), ?_⟩
  simp only [search_symbols, hc, rankPhase]

theorem C8_cache_idempotent (ratioF pRatioF ratioF2 pRatioF2 : String → String → Nat)
    (fetch fetch2 : List SRow × Int) (now now2 : Int) (q : String) (st : SymState)
    (hb : cacheBounded st) :
    (search_symbols ratioF pRatioF fetch now q st).1.length ≤ 10 ∧
    cacheBounded (search_symbols ratioF pRatioF fetch now q st).2 ∧
    (search_symbols ratioF2 pRatioF2 fetch2 now2 q
        (search_symbols ratioF pRatioF fetch now q st).2).1 =
      (search_symbols ratioF pRatioF fetch now q st).1 := by
  rcases hc : lookupCache st.searched_symbols q with _ | res
  · obtain ⟨final, heq⟩ := search_symbols_miss_any ratioF pRatioF fetch now q st hc
    rw [heq]
    refine ⟨?_, ?_, ?_⟩
    · rw [List.length_map, List.length_take]
      exact Nat.min_le_left _ _
    · intro p hp
      rcases mem_insertCache _ _ _ p hp with h | h
      · rw [h]
        rw [List.length_map, List.length_take]
        exact Nat.min_le_left _ _
      · exact hb p h
    · exact congrArg Prod.fst
        (search_symbols_hit ratioF2 pRatioF2 fetch2 now2 q _ _
          (lookupCache_insert_self st.searched_symbols q _))
  · rw [search_symbols_hit ratioF pRatioF fetch now q st res hc]
    refine ⟨hb (q, res) (lookupCache_mem st.searched_symbols q res hc), hb, ?_⟩
    exact congrArg Prod.fst (search_symbols_hit ratioF2 pRatioF2 fetch2 now2 q st res hc)

/-- C8 witness: a fresh state with an empty (hence bounded) cache. -/
theorem C8_witness :
    (search_symbols eqRatio subRatio ([], 0) 0 "AB" stTwo).1.length ≤ 10 ∧
    cacheBounded (search_symbols eqRatio subRatio ([], 0) 0 "AB" stTwo).2 ∧
    (search_symbols eqRatio subRatio ([], 0) 7200 "AB"
        (search_symbols eqRatio subRatio ([], 0) 0 "AB" stTwo).2).1 =
      (search_symbols eqRatio subRatio ([], 0) 0 "AB" stTwo).1 :=
  C8_cache_idempotent eqRatio subRatio eqRatio subRatio ([], 0) ([], 0) 0 7200 "AB" stTwo
    (by intro p hp; simp [stTwo] at hp)

/-- C6 counterexample: the table contains ticker `AB`; searching for the
exact string `AB` (not cached, no refresh due) ranks `CD` first, because the
ticker-phase top-5 sum (100 + 0) is below 300 and the name-based fallback
rescoring prefers the row whose issue name contains the query as a
substring.  The concrete scoring functions agree with fuzz.ratio /
fuzz.partial_ratio on every pair evaluated here. -/
theorem C6_cex :
    stTwo.symbol_list.map (fun r => r.symbol) = ["AB", "CD"] ∧
    (search_symbols eqRatio subRatio ([], 0) 0 "AB" stTwo).1.map Prod.fst = ["CD", "AB"] ∧
    eqRatio (strLower "AB") (strLower "AB") = 100 := by
  decide

/-- C6 (amended): when the search is not cached, no refresh is due, the
similarity function is maximal exactly on equal strings and bounded by 100,
the table contains a row whose ticker equals the query up to case, and the
ticker-phase top-5 score sum is at least 300 (so the name-based fallback
does not engage), then the first returned entry carries a ticker equal to
the query up to case. -/
theorem C6_exact_ticker_first (ratioF pRatioF : String → String → Nat)
    (fetch : List SRow × Int) (now : Int) (q : String) (st : SymState)
    (hc : lookupCache st.searched_symbols q = none) (hts : st.symbol_ts ≤ now)
    (hrefl : ∀ s, ratioF s s = 100)
    (hle : ∀ a b, ratioF a b ≤ 100)
    (hlt : ∀ a b, a ≠ b → ratioF a b < 100)
    (hrow : ∃ r, r ∈ st.symbol_list ∧ strLower r.symbol = strLower q)
    (hsum : ¬ sumTop5 (sortByMatch (scoreTicker ratioF q st.symbol_list)) < 300) :
    ∃ p rest, (search_symbols ratioF pRatioF fetch now q st).1 = p :: rest ∧
      strLower p.1 = strLower q := by
  haveI : IsTotal SRow (fun a b => matchKey b ≤ matchKey a) :=
    ⟨fun a b => Nat.le_total (matchKey b) (matchKey a)⟩
  haveI : IsTrans SRow (fun a b => matchKey b ≤ matchKey a) :=
    ⟨fun a b c h1 h2 => Nat.le_trans h2 h1⟩
  obtain ⟨r, hr, hrl⟩ := hrow
  rw [search_symbols_miss ratioF pRatioF fetch now q st hc hts]
  dsimp only
  rw [rankPhase, if_neg hsum]
  have hperm : List.Perm (sortByMatch (scoreTicker ratioF q st.symbol_list))
      (scoreTicker ratioF q st.symbol_list) := List.perm_insertionSort _ _
  have hsorted : List.Sorted (fun a b => matchKey b ≤ matchKey a)
      (sortByMatch (scoreTicker ratioF q st.symbol_list)) :=
    List.sorted_insertionSort _ _
  have hrmem : ({ r with match_val := some (ratioF (strLower q) (strLower r.symbol)) } : SRow)
      ∈ scoreTicker ratioF q st.symbol_list := List.mem_map_of_mem _ hr
  have hr100 : matchKey
      ({ r with match_val := some (ratioF (strLower q) (strLower r.symbol)) } : SRow) = 100 := by
    simp [matchKey, hrl, hrefl]
  have hrmem2 := hperm.mem_iff.mpr hrmem
  rcases hsd : sortByMatch (scoreTicker ratioF q st.symbol_list) with _ | ⟨h0, tl⟩
  · rw [hsd] at hrmem2
    simp at hrmem2
  · rw [hsd] at hrmem2 hsorted hperm
    have hhead : ∀ y ∈ h0 :: tl, matchKey y ≤ matchKey h0 := by
      intro y hy
      rcases List.mem_cons.mp hy with h | h
      · rw [h]
      · exact (List.sorted_cons.mp hsorted).1 y h
    have h100le : 100 ≤ matchKey h0 := by
      have hx := hhead _ hrmem2
      rw [hr100] at hx
      exact hx
    have hh0 : h0 ∈ scoreTicker ratioF q st.symbol_list :=
      hperm.subset (List.mem_cons_self _ _)
    obtain ⟨r0, hr0, hup⟩ := List.mem_map.mp hh0
    have hkey : matchKey h0 = ratioF (strLower q) (strLower r0.symbol) := by
      rw [← hup]
      simp [matchKey]
    have hle0 : ratioF (strLower q) (strLower r0.symbol) ≤ 100 := hle _ _
    have heq100 : ratioF (strLower q) (strLower r0.symbol) = 100 := by omega
    have hql : strLower q = strLower r0.symbol := by
      by_contra hne
      exact absurd heq100 (Nat.ne_of_lt (hlt _ _ hne))
    refine ⟨(h0.symbol, h0.description),
      (tl.take 9).map (fun r2 => (r2.symbol, r2.description)), ?_, ?_⟩
    · rfl
    · have hsym : h0.symbol = r0.symbol := by rw [← hup]
      simp only [hsym]
      exact hql.symm

/-- C6 witness: a table of three rows with ticker `AB` whose ticker-phase
top-5 sum is exactly 300, searched with the exact string `AB`. -/
theorem C6_witness :
    ∃ p rest, (search_symbols eqRatio subRatio ([], 0) 0 "AB" stThree).1 = p :: rest ∧
      strLower p.1 = strLower "AB" :=
  C6_exact_ticker_first eqRatio subRatio ([], 0) 0 "AB" stThree (by rfl) (by decide)
    (fun s => by simp [eqRatio])
    (fun a b => by by_cases h : a = b <;> simp [eqRatio, h])
    (fun a b h => by simp [eqRatio, h])
    ⟨rowA1, by decide, by decide⟩
    (by decide)

/-- C9: every router batch operation (price, dividend, news, info,
statistics) returns at most one reply per input symbol; when every input is
a Stock or a Coin, the output has exactly the input's length and the i-th
reply is the one produced for the i-th input symbol (the output is the
element-wise image of the input, in input order). -/
theorem C9_router_batch_dispatch (sf cf : String → String) (l : List RSym) :
    ((price_reply sf cf l).length ≤ l.length ∧
     (dividend_reply sf l).length ≤ l.length ∧
     (news_reply sf l).length ≤ l.length ∧
     (info_reply sf cf l).length ≤ l.length ∧
     (stat_reply sf cf l).length ≤ l.length) ∧
    ((∀ x ∈ l, x ≠ RSym.Other) →
      price_reply sf cf l = l.map (priceVal sf cf) ∧
      dividend_reply sf l = l.map (dividendVal sf) ∧
      news_reply sf l = l.map (newsVal sf) ∧
      info_reply sf cf l = l.map (infoVal sf cf) ∧
      stat_reply sf cf l = l.map (statVal sf cf)) := by
  constructor
  · exact ⟨List.length_filterMap_le _ _, List.length_filterMap_le _ _,
      List.length_filterMap_le _ _, List.length_filterMap_le _ _,
      List.length_filterMap_le _ _⟩
  · intro h
    refine ⟨?_, ?_, ?_, ?_, ?_⟩
    · exact filterMap_eq_map_of_no_other _ _
        (fun x hx => by rcases x with s | s | _ <;> simp_all [priceFn, priceVal]) l h
    · exact filterMap_eq_map_of_no_other _ _
        (fun x hx => by rcases x with s | s | _ <;> simp_all [dividendFn, dividendVal]) l h
    · exact filterMap_eq_map_of_no_other _ _
        (fun x hx => by rcases x with s | s | _ <;> simp_all [newsFn, newsVal]) l h
    · exact filterMap_eq_map_of_no_other _ _
        (fun x hx => by rcases x with s | s | _ <;> simp_all [infoFn, infoVal]) l h
    · exact filterMap_eq_map_of_no_other _ _
        (fun x hx => by rcases x with s | s | _ <;> simp_all [statFn, statVal]) l h

/-- C9 witness: a mixed Stock/Coin batch with concrete backends; the price
replies are exactly the element-wise backend replies, in order. -/
theorem C9_witness :
    price_reply (fun s => String.append "S" s) (fun s => String.append "C" s)
        [RSym.Stock "a", RSym.Coin "b"] =
      [RSym.Stock "a", RSym.Coin "b"].map
        (priceVal (fun s => String.append "S" s) (fun s => String.append "C" s)) :=
  ((C9_router_batch_dispatch (fun s => String.append "S" s)
      (fun s => String.append "C" s) [RSym.Stock "a", RSym.Coin "b"]).2
    (by decide)).1

/-- C10: the list returned by `find_symbols` always consists of a block of
Stock symbols followed by a block of Coin symbols, whatever the order of the
mentions in the text: the stock loop runs to completion before the coin
loop starts. -/
theorem C10_stocks_before_coins (stockList coinList : List String) (text : String) :
    ∃ sp cp, find_symbols stockList coinList text = sp ++ cp ∧
      (∀ x ∈ sp, ∃ s, x = RSym.Stock s) ∧ (∀ x ∈ cp, ∃ s, x = RSym.Coin s) := by
  refine ⟨_, _, rfl, ?_, ?_⟩
  · intro x hx
    obtain ⟨a, _, ha⟩ := List.mem_filterMap.mp hx
    by_cases h : strUpper a ∈ stockList
    · rw [if_pos h] at ha
      exact ⟨a, (Option.some.inj ha).symm⟩
    · rw [if_neg h] at ha
      cases ha
  · intro x hx
    obtain ⟨a, _, ha⟩ := List.mem_filterMap.mp hx
    by_cases h : strLower a ∈ coinList
    · rw [if_pos h] at ha
      exact ⟨strLower a, (Option.some.inj ha).symm⟩
    · rw [if_neg h] at ha
      cases ha

/-- C10 witness: coin mentioned before stock in the text; the Stock still
comes first in the output. -/
theorem C10_witness :
    ∃ sp cp, find_symbols ["A"] ["b"] "$$b then $a" = sp ++ cp ∧
      (∀ x ∈ sp, ∃ s, x = RSym.Stock s) ∧ (∀ x ∈ cp, ∃ s, x = RSym.Coin s) :=
  C10_stocks_before_coins ["A"] ["b"] "$$b then $a"
